import Mathlib

/-!
Verification of the apex-domain extraction utility.

The program under study reads text files of domain names, reduces every
entry to its registrable ("apex") domain with a fixed heuristic suffix
set, deduplicates the results and writes them out sorted, one file per
input file.

Strings are modelled as `List Char`.  The Python string primitives used
by the program (`strip`, `lower`, `split`, `join`, slicing) are embedded
as explicit Lean functions on `List Char`; file input/output is modelled
by explicit state passing (the read result is an `Except`, the output
file content is an `Option (List (List Char))`).
-/

/-- The whitespace test used by `str.strip()` / `str.split()`, restricted
to the ASCII whitespace characters that can occur in these files. -/
def pyIsSpace (c : Char) : Bool :=
  c = ' ' || c = '\t' || c = '\n' || c = '\r' || c = '\x0B' || c = '\x0C'

/-- `str.strip()`: drop whitespace from both ends. -/
def pyStrip (s : List Char) : List Char :=
  ((s.dropWhile pyIsSpace).reverse.dropWhile pyIsSpace).reverse

/-- `str.lower()` on a single character (ASCII range). -/
def pyToLower (c : Char) : Char :=
  if 65 ≤ c.toNat ∧ c.toNat ≤ 90 then Char.ofNat (c.toNat + 32) else c

/-- `str.lower()`. -/
def pyLower (s : List Char) : List Char := s.map pyToLower

/-- `domain.endswith('.')`. -/
def endswith_dot (s : List Char) : Bool := s.getLast? == some '.'

/-- The `if domain.endswith('.'): domain = domain[:-1]` normalisation step. -/
def pyDropDot (s : List Char) : List Char :=
  if endswith_dot s then s.dropLast else s

/-- The fixed `two_level_tlds` set literal of the source. -/
def two_level_tlds : List (List Char) :=
  (["co.uk", "co.jp", "co.kr", "co.nz", "co.za", "co.il", "co.in",
    "com.au", "com.br", "com.cn", "com.mx", "com.ar", "com.tr",
    "org.uk", "org.au", "ac.uk", "gov.uk", "net.au"]).map String.toList

/-- Python slice `l[-n:]` (the last `n` elements). -/
def pyTakeLast {α : Type} (n : Nat) (l : List α) : List α :=
  l.drop (l.length - n)

/-- `'.'.join(parts)`. -/
def joinDots (ps : List (List Char)) : List Char := List.intercalate ['.'] ps

/-- `extract_apex_domain` from the source: strip, lowercase, drop one
trailing dot, return `none` on empty, else keep the last two labels, or
the last three when the last two form a known two-part suffix. -/
def extract_apex_domain (domain0 : List Char) : Option (List Char) :=
  let domain := pyDropDot (pyLower (pyStrip domain0))
  if domain = [] then none
  else
    let parts := domain.splitOn '.'
    if parts.length ≤ 1 then some domain
    else if 3 ≤ parts.length ∧ joinDots (pyTakeLast 2 parts) ∈ two_level_tlds then
      some (joinDots (pyTakeLast 3 parts))
    else
      some (joinDots (pyTakeLast 2 parts))

/-- The local variable `domain` of `extract_apex_domain` after the three
normalisation steps (strip, lowercase, drop one trailing dot). -/
def normalized_domain (d : List Char) : List Char := pyDropDot (pyLower (pyStrip d))

/-- `str.split()` with no separator: whitespace-delimited tokens, empty
tokens discarded. -/
def pySplitWs (s : List Char) : List (List Char) :=
  (s.splitOnP pyIsSpace).filter (fun t => !t.isEmpty)

/-- `line.split()[0] if line.split() else line` from `process_file`. -/
def first_token (line : List Char) : List Char :=
  match pySplitWs line with
  | [] => line
  | t :: _ => t

/-- `apex_domains.add(apex)`: the Python set is modelled by a duplicate-free
list in insertion order. -/
def add_apex (acc : List (List Char)) (a : List Char) : List (List Char) :=
  if a ∈ acc then acc else acc ++ [a]

/-- The body of the read loop of `process_file` for one raw line:
strip, skip blank and `#`-comment lines, take the first token, resolve
it, and add a non-absent apex to the set. -/
def process_line (acc : List (List Char)) (raw : List Char) : List (List Char) :=
  let line := pyStrip raw
  if line = [] ∨ line.head? = some '#' then acc
  else
    match extract_apex_domain (first_token line) with
    | none => acc
    | some apex => add_apex acc apex

/-- The set `apex_domains` after the whole read loop. -/
def apex_set (lines : List (List Char)) : List (List Char) :=
  lines.foldl process_line []

/-- The pure core of `process_file`: the sorted unique output lines and
the returned count `len(apex_domains)`. -/
def process_file (lines : List (List Char)) : List (List Char) × Nat :=
  let s := apex_set lines
  (s.insertionSort (· ≤ ·), s.length)

/-- One input file together with the fate of its I/O: the read phase
either yields the file's lines or raises, and the write phase either
succeeds or raises. -/
structure FileSpec where
  readRes : Except String (List (List Char))
  writeOk : Bool

/-- `process_file` with its try/except boundary, as a transformer of the
output file's state (`none` = the output file does not exist).  A read
error hits the `except` clause before `open(output_path, 'w')` runs, so
the output state is untouched and the count is 0.  On a successful read
the output is opened for writing (truncating it); a write error then
also yields count 0. -/
def process_file_eff (spec : FileSpec) (prevOut : Option (List (List Char))) :
    Nat × Option (List (List Char)) :=
  match spec.readRes with
  | Except.error _ => (0, prevOut)
  | Except.ok lines =>
    if spec.writeOk then
      ((process_file lines).2, some (process_file lines).1)
    else
      (0, some [])

/-- The per-file loop of `main`: `total_processed += 1` runs for every
discovered file, whatever `process_file` returned.  Result: the value of
`total_processed` and the list of per-file counts. -/
def main_batch (specs : List FileSpec) : Nat × List Nat :=
  specs.foldl
    (fun acc spec => (acc.1 + 1, acc.2 ++ [(process_file_eff spec none).1])) (0, [])

/-! ### Character-level lemmas -/

theorem char_toNat_ofNat_small : ∀ n < 123, (Char.ofNat n).toNat = n := by decide

theorem pyToLower_toNat_of_upper (c : Char) (h : 65 ≤ c.toNat ∧ c.toNat ≤ 90) :
    (pyToLower c).toNat = c.toNat + 32 := by
  rw [pyToLower, if_pos h]
  exact char_toNat_ofNat_small _ (by omega)

theorem pyToLower_of_not_upper (c : Char) (h : ¬ (65 ≤ c.toNat ∧ c.toNat ≤ 90)) :
    pyToLower c = c := by
  rw [pyToLower, if_neg h]

theorem pyToLower_pyToLower (c : Char) : pyToLower (pyToLower c) = pyToLower c := by
  by_cases h : 65 ≤ c.toNat ∧ c.toNat ≤ 90
  · have ht := pyToLower_toNat_of_upper c h
    apply pyToLower_of_not_upper
    rw [ht]
    omega
  · rw [pyToLower_of_not_upper c h]
    exact pyToLower_of_not_upper c h

theorem pyToLower_eq_dot_iff (c : Char) : pyToLower c = '.' ↔ c = '.' := by
  constructor
  · intro h
    by_cases hu : 65 ≤ c.toNat ∧ c.toNat ≤ 90
    · exfalso
      have hn := congrArg Char.toNat h
      rw [pyToLower_toNat_of_upper c hu] at hn
      have h46 : ('.' : Char).toNat = 46 := by decide
      omega
    · rwa [pyToLower_of_not_upper c hu] at h
  · intro h
    subst h
    decide

theorem pyToLower_dot : pyToLower '.' = '.' := by decide

/-! ### Generic list lemmas about the embedded Python primitives -/

theorem map_fix_of_forall {f : Char → Char} :
    ∀ (s : List Char), (∀ c ∈ s, f c = c) → s.map f = s
  | [], _ => rfl
  | a :: t, h => by
    rw [List.map_cons, h a (List.mem_cons_self a t),
      map_fix_of_forall t (fun c hc => h c (List.mem_cons_of_mem a hc))]

theorem lower_fix_of_mem {s : List Char} (h : pyLower s = s) {c : Char} (hc : c ∈ s) :
    pyToLower c = c := by
  rw [← h, pyLower] at hc
  obtain ⟨a, _, rfl⟩ := List.mem_map.mp hc
  exact pyToLower_pyToLower a

theorem pyLower_pyLower (s : List Char) : pyLower (pyLower s) = pyLower s := by
  apply map_fix_of_forall
  intro c hc
  rw [pyLower] at hc
  obtain ⟨a, _, rfl⟩ := List.mem_map.mp hc
  exact pyToLower_pyToLower a

theorem endswith_dot_false_iff {s : List Char} :
    endswith_dot s = false ↔ s.getLast? ≠ some '.' := by
  rw [endswith_dot]
  simp

theorem endswith_dot_true_iff {s : List Char} :
    endswith_dot s = true ↔ s.getLast? = some '.' := by
  rw [endswith_dot]
  simp

theorem dropWhile_head_false {α : Type} (p : α → Bool) :
    ∀ (l : List α) (c : α) (rest : List α), l.dropWhile p = c :: rest → p c = false
  | [], c, rest, h => by simp at h
  | x :: xs, c, rest, h => by
    by_cases hx : p x
    · rw [List.dropWhile_cons, if_pos hx] at h
      exact dropWhile_head_false p xs c rest h
    · rw [List.dropWhile_cons, if_neg hx] at h
      cases h
      simpa using hx

theorem pyStrip_has_nonspace {s : List Char} (h : pyStrip s ≠ []) :
    ∃ c ∈ pyStrip s, pyIsSpace c = false := by
  rw [pyStrip] at h ⊢
  cases hd : ((s.dropWhile pyIsSpace).reverse.dropWhile pyIsSpace) with
  | nil => rw [hd] at h; simp at h
  | cons c rest =>
    refine ⟨c, ?_, dropWhile_head_false pyIsSpace _ c rest hd⟩
    simp

theorem splitOnP_pieces_false {α : Type} (p : α → Bool) :
    ∀ (s piece : List α), piece ∈ s.splitOnP p → ∀ c ∈ piece, p c = false := by
  intro s
  induction s with
  | nil =>
    intro piece hp c hc
    rw [List.splitOnP_nil] at hp
    simp at hp
    subst hp
    simp at hc
  | cons x xs ih =>
    intro piece hp c hc
    rw [List.splitOnP_cons] at hp
    by_cases hx : p x
    · rw [if_pos hx] at hp
      rcases List.mem_cons.mp hp with h1 | h2
      · subst h1
        simp at hc
      · exact ih piece h2 c hc
    · rw [if_neg hx] at hp
      obtain ⟨r, rs, hrr⟩ : ∃ r rs, xs.splitOnP p = r :: rs := by
        cases hsp : xs.splitOnP p with
        | nil => exact absurd hsp (List.splitOnP_ne_nil p xs)
        | cons r rs => exact ⟨r, rs, rfl⟩
      rw [hrr, List.modifyHead_cons] at hp
      rcases List.mem_cons.mp hp with h1 | h2
      · subst h1
        rcases List.mem_cons.mp hc with hcx | hcr
        · subst hcx
          simpa using hx
        · exact ih r (hrr ▸ List.mem_cons_self r rs) c hcr
      · exact ih piece (hrr ▸ List.mem_cons_of_mem r h2) c hc

theorem splitOnP_pieces_subset {α : Type} (p : α → Bool) :
    ∀ (s piece : List α), piece ∈ s.splitOnP p → ∀ c ∈ piece, c ∈ s := by
  intro s
  induction s with
  | nil =>
    intro piece hp c hc
    rw [List.splitOnP_nil] at hp
    simp at hp
    subst hp
    simp at hc
  | cons x xs ih =>
    intro piece hp c hc
    rw [List.splitOnP_cons] at hp
    by_cases hx : p x
    · rw [if_pos hx] at hp
      rcases List.mem_cons.mp hp with h1 | h2
      · subst h1
        simp at hc
      · exact List.mem_cons_of_mem x (ih piece h2 c hc)
    · rw [if_neg hx] at hp
      obtain ⟨r, rs, hrr⟩ : ∃ r rs, xs.splitOnP p = r :: rs := by
        cases hsp : xs.splitOnP p with
        | nil => exact absurd hsp (List.splitOnP_ne_nil p xs)
        | cons r rs => exact ⟨r, rs, rfl⟩
      rw [hrr, List.modifyHead_cons] at hp
      rcases List.mem_cons.mp hp with h1 | h2
      · subst h1
        rcases List.mem_cons.mp hc with hcx | hcr
        · subst hcx
          exact List.mem_cons_self c xs
        · exact List.mem_cons_of_mem x (ih r (hrr ▸ List.mem_cons_self r rs) c hcr)
      · exact List.mem_cons_of_mem x (ih piece (hrr ▸ List.mem_cons_of_mem r h2) c hc)

theorem splitOnP_getLast_ne_nil {α : Type} (p : α → Bool) :
    ∀ (s : List α) (c : α), s.getLast? = some c → p c = false →
      (s.splitOnP p).getLast? ≠ some ([] : List α)
  | [], c, h, _ => by simp at h
  | [x], c, h, hpc => by
    have hcx : c = x := by simpa using h.symm
    subst hcx
    rw [List.splitOnP_cons, List.splitOnP_nil, if_neg (by simp [hpc]), List.modifyHead_cons]
    simp
  | x :: y :: ys, c, h, hpc => by
    rw [List.getLast?_cons_cons] at h
    have ih := splitOnP_getLast_ne_nil p (y :: ys) c h hpc
    obtain ⟨r, rs, hrr⟩ : ∃ r rs, (y :: ys).splitOnP p = r :: rs := by
      cases hsp : (y :: ys).splitOnP p with
      | nil => exact absurd hsp (List.splitOnP_ne_nil p (y :: ys))
      | cons r rs => exact ⟨r, rs, rfl⟩
    rw [List.splitOnP_cons, hrr]
    rw [hrr] at ih
    by_cases hx : p x
    · rw [if_pos hx]
      rw [List.getLast?_cons_cons]
      exact ih
    · rw [if_neg hx, List.modifyHead_cons]
      cases rs with
      | nil =>
        simp only [List.getLast?_singleton] at ih ⊢
        simp
      | cons z zs =>
        rw [List.getLast?_cons_cons]
        rw [List.getLast?_cons_cons] at ih
        exact ih

theorem two_le_splitOn_length {α : Type} [DecidableEq α] (a : α) :
    ∀ (s : List α), a ∈ s → 2 ≤ (s.splitOn a).length := by
  intro s
  induction s with
  | nil => simp
  | cons x xs ih =>
    intro hmem
    show 2 ≤ ((x :: xs).splitOnP (· == a)).length
    rw [List.splitOnP_cons]
    by_cases hx : x == a
    · rw [if_pos hx]
      have hlen : 1 ≤ (xs.splitOnP (· == a)).length :=
        List.length_pos.mpr (List.splitOnP_ne_nil _ xs)
      simp only [List.length_cons]
      omega
    · rw [if_neg hx]
      rw [List.length_modifyHead]
      apply ih
      rcases List.mem_cons.mp hmem with h1 | h2
      · exact absurd (by simp [h1]) hx
      · exact h2

theorem splitOn_dot_not_mem {s piece : List Char} (h : piece ∈ s.splitOn '.') :
    '.' ∉ piece := by
  intro hdot
  have := splitOnP_pieces_false (· == '.') s piece h '.' hdot
  simp at this

theorem splitOn_dot_subset {s piece : List Char} (h : piece ∈ s.splitOn '.') :
    ∀ c ∈ piece, c ∈ s :=
  splitOnP_pieces_subset (· == '.') s piece h

theorem not_mem_of_splitOn_short {s : List Char}
    (h : (s.splitOn '.').length ≤ 1) : '.' ∉ s := by
  intro hmem
  have := two_le_splitOn_length '.' s hmem
  omega

theorem length_pyTakeLast {α : Type} (n : Nat) (l : List α) (h : n ≤ l.length) :
    (pyTakeLast n l).length = n := by
  rw [pyTakeLast, List.length_drop]
  omega

theorem mem_of_mem_pyTakeLast {α : Type} {n : Nat} {l : List α} {x : α}
    (h : x ∈ pyTakeLast n l) : x ∈ l :=
  List.drop_subset _ l h

theorem pyTakeLast_all {α : Type} (n : Nat) (l : List α) (h : l.length ≤ n) :
    pyTakeLast n l = l := by
  rw [pyTakeLast]
  have h0 : l.length - n = 0 := by omega
  rw [h0, List.drop_zero]

theorem pyTakeLast_pyTakeLast {α : Type} (m n : Nat) (l : List α)
    (hm : m ≤ n) (hn : n ≤ l.length) :
    pyTakeLast m (pyTakeLast n l) = pyTakeLast m l := by
  rw [pyTakeLast, pyTakeLast, pyTakeLast, List.drop_drop,
    List.length_drop]
  congr 1
  omega

theorem getLast?_pyTakeLast {α : Type} (n : Nat) (l : List α)
    (hn : 1 ≤ n) (hl : l ≠ []) :
    (pyTakeLast n l).getLast? = l.getLast? := by
  have h2 : l.drop (l.length - n) ≠ [] := by
    intro hcon
    rw [List.drop_eq_nil_iff] at hcon
    have := List.length_pos.mpr hl
    omega
  calc (pyTakeLast n l).getLast?
      = (l.take (l.length - n) ++ l.drop (l.length - n)).getLast? := by
        rw [List.getLast?_append_of_ne_nil _ h2]
        rfl
    _ = l.getLast? := by rw [List.take_append_drop]

theorem joinDots_nil : joinDots [] = [] := by
  simp [joinDots, List.intercalate]

theorem joinDots_singleton (a : List Char) : joinDots [a] = a := by
  simp [joinDots, List.intercalate]

theorem joinDots_cons_cons (a b : List Char) (t : List (List Char)) :
    joinDots (a :: b :: t) = a ++ '.' :: joinDots (b :: t) := by
  show List.intercalate ['.'] (a :: b :: t) = a ++ '.' :: List.intercalate ['.'] (b :: t)
  simp [List.intercalate]

theorem joinDots_ne_nil (a b : List Char) (t : List (List Char)) :
    joinDots (a :: b :: t) ≠ [] := by
  rw [joinDots_cons_cons]
  intro h
  rcases List.append_eq_nil.mp h with ⟨_, h2⟩
  simp at h2

theorem mem_joinDots :
    ∀ (ps : List (List Char)) (c : Char), c ∈ joinDots ps →
      c = '.' ∨ ∃ p, p ∈ ps ∧ c ∈ p
  | [], c, h => by rw [joinDots_nil] at h; simp at h
  | [a], c, h => by
    rw [joinDots_singleton] at h
    exact Or.inr ⟨a, by simp, h⟩
  | a :: b :: t, c, h => by
    rw [joinDots_cons_cons] at h
    rcases List.mem_append.mp h with h1 | h2
    · exact Or.inr ⟨a, by simp, h1⟩
    · rcases List.mem_cons.mp h2 with h3 | h4
      · exact Or.inl h3
      · rcases mem_joinDots (b :: t) c h4 with h5 | ⟨p, hp, hcp⟩
        · exact Or.inl h5
        · exact Or.inr ⟨p, List.mem_cons_of_mem a hp, hcp⟩

theorem getLast?_joinDots :
    ∀ (ps : List (List Char)) (q : List Char),
      ps.getLast? = some q → q ≠ [] → (joinDots ps).getLast? = q.getLast?
  | [], q, h, _ => by simp at h
  | [a], q, h, _ => by
    have hq : q = a := by simpa using h.symm
    subst hq
    rw [joinDots_singleton]
  | a :: b :: t, q, h, hq => by
    rw [List.getLast?_cons_cons] at h
    have hrec := getLast?_joinDots (b :: t) q h hq
    rw [joinDots_cons_cons]
    have hne2 : ('.' :: joinDots (b :: t)) ≠ [] := by simp
    rw [List.getLast?_append_of_ne_nil _ hne2]
    cases hjoin : joinDots (b :: t) with
    | nil =>
      cases t with
      | nil =>
        rw [joinDots_singleton] at hjoin
        have hqb : q = b := by simpa using h.symm
        exact absurd (hqb.trans hjoin) hq
      | cons z t2 => exact absurd hjoin (joinDots_ne_nil b z t2)
    | cons z zs =>
      rw [List.getLast?_cons_cons, ← hjoin, hrec]

theorem mem_of_getLast?_eq_some {α : Type} {l : List α} {a : α}
    (h : l.getLast? = some a) : a ∈ l := by
  obtain ⟨hne, heq⟩ := List.mem_getLast?_eq_getLast (Option.mem_def.mpr h)
  rw [heq]
  exact List.getLast_mem hne

/-! ### Structural lemmas about the resolver -/

theorem extract_apex_domain_eq (d : List Char) :
    extract_apex_domain d =
      if normalized_domain d = [] then none
      else if ((normalized_domain d).splitOn '.').length ≤ 1 then
        some (normalized_domain d)
      else if 3 ≤ ((normalized_domain d).splitOn '.').length ∧
          joinDots (pyTakeLast 2 ((normalized_domain d).splitOn '.')) ∈ two_level_tlds then
        some (joinDots (pyTakeLast 3 ((normalized_domain d).splitOn '.')))
      else
        some (joinDots (pyTakeLast 2 ((normalized_domain d).splitOn '.'))) := rfl

theorem extract_of_single (d : List Char) (h0 : normalized_domain d ≠ [])
    (h1 : ((normalized_domain d).splitOn '.').length ≤ 1) :
    extract_apex_domain d = some (normalized_domain d) := by
  rw [extract_apex_domain_eq, if_neg h0, if_pos h1]

theorem extract_of_tld (d : List Char) (h0 : normalized_domain d ≠ [])
    (h1 : ¬ ((normalized_domain d).splitOn '.').length ≤ 1)
    (h2 : 3 ≤ ((normalized_domain d).splitOn '.').length ∧
      joinDots (pyTakeLast 2 ((normalized_domain d).splitOn '.')) ∈ two_level_tlds) :
    extract_apex_domain d = some (joinDots (pyTakeLast 3 ((normalized_domain d).splitOn '.'))) := by
  rw [extract_apex_domain_eq, if_neg h0, if_neg h1, if_pos h2]

theorem extract_of_two (d : List Char) (h0 : normalized_domain d ≠ [])
    (h1 : ¬ ((normalized_domain d).splitOn '.').length ≤ 1)
    (h2 : ¬ (3 ≤ ((normalized_domain d).splitOn '.').length ∧
      joinDots (pyTakeLast 2 ((normalized_domain d).splitOn '.')) ∈ two_level_tlds)) :
    extract_apex_domain d = some (joinDots (pyTakeLast 2 ((normalized_domain d).splitOn '.'))) := by
  rw [extract_apex_domain_eq, if_neg h0, if_neg h1, if_neg h2]

theorem extract_eq_none_iff (d : List Char) :
    extract_apex_domain d = none ↔ normalized_domain d = [] := by
  constructor
  · intro h
    by_cases h0 : normalized_domain d = []
    · exact h0
    by_cases h1 : ((normalized_domain d).splitOn '.').length ≤ 1
    · rw [extract_of_single d h0 h1] at h
      cases h
    by_cases h2 : 3 ≤ ((normalized_domain d).splitOn '.').length ∧
        joinDots (pyTakeLast 2 ((normalized_domain d).splitOn '.')) ∈ two_level_tlds
    · rw [extract_of_tld d h0 h1 h2] at h
      cases h
    · rw [extract_of_two d h0 h1 h2] at h
      cases h
  · intro h0
    rw [extract_apex_domain_eq, if_pos h0]

theorem splitOn_dot_ne_nil (s : List Char) : s.splitOn '.' ≠ [] :=
  List.splitOnP_ne_nil _ s

theorem extract_form {d r : List Char} (h : extract_apex_domain d = some r) :
    (r = normalized_domain d ∧ r ≠ [] ∧ '.' ∉ r) ∨
    (∃ ps : List (List Char),
      r = joinDots ps ∧
      (∀ p ∈ ps, '.' ∉ p) ∧
      (∀ p ∈ ps, ∀ c ∈ p, c ∈ normalized_domain d) ∧
      normalized_domain d ≠ [] ∧
      ps.getLast? = ((normalized_domain d).splitOn '.').getLast? ∧
      (ps.length = 2 ∨ (ps.length = 3 ∧ joinDots (pyTakeLast 2 ps) ∈ two_level_tlds))) := by
  by_cases h0 : normalized_domain d = []
  · rw [extract_apex_domain_eq, if_pos h0] at h
    cases h
  by_cases h1 : ((normalized_domain d).splitOn '.').length ≤ 1
  · rw [extract_of_single d h0 h1] at h
    obtain rfl := Option.some.inj h
    left
    exact ⟨rfl, h0, not_mem_of_splitOn_short h1⟩
  by_cases h2 : 3 ≤ ((normalized_domain d).splitOn '.').length ∧
      joinDots (pyTakeLast 2 ((normalized_domain d).splitOn '.')) ∈ two_level_tlds
  · rw [extract_of_tld d h0 h1 h2] at h
    right
    refine ⟨pyTakeLast 3 ((normalized_domain d).splitOn '.'),
      (Option.some.inj h).symm, ?_, ?_, h0, ?_, Or.inr ⟨?_, ?_⟩⟩
    · intro p hp
      exact splitOn_dot_not_mem (mem_of_mem_pyTakeLast hp)
    · intro p hp c hc
      exact splitOn_dot_subset (mem_of_mem_pyTakeLast hp) c hc
    · exact getLast?_pyTakeLast 3 _ (by omega) (splitOn_dot_ne_nil _)
    · exact length_pyTakeLast 3 _ h2.1
    · rw [pyTakeLast_pyTakeLast 2 3 _ (by omega) h2.1]
      exact h2.2
  · rw [extract_of_two d h0 h1 h2] at h
    right
    have hge2 : 2 ≤ ((normalized_domain d).splitOn '.').length := by omega
    refine ⟨pyTakeLast 2 ((normalized_domain d).splitOn '.'),
      (Option.some.inj h).symm, ?_, ?_, h0, ?_, Or.inl ?_⟩
    · intro p hp
      exact splitOn_dot_not_mem (mem_of_mem_pyTakeLast hp)
    · intro p hp c hc
      exact splitOn_dot_subset (mem_of_mem_pyTakeLast hp) c hc
    · exact getLast?_pyTakeLast 2 _ (by omega) (splitOn_dot_ne_nil _)
    · exact length_pyTakeLast 2 _ hge2

theorem normalized_lower_fix (d : List Char) :
    pyLower (normalized_domain d) = normalized_domain d := by
  apply map_fix_of_forall
  intro c hc
  have hc2 : c ∈ pyLower (pyStrip d) := by
    rw [normalized_domain, pyDropDot] at hc
    split_ifs at hc
    · exact List.dropLast_subset _ hc
    · exact hc
  exact lower_fix_of_mem (pyLower_pyLower (pyStrip d)) hc2

theorem extract_lower {d r : List Char} (h : extract_apex_domain d = some r) :
    pyLower r = r := by
  rcases extract_form h with ⟨rfl, _, _⟩ | ⟨ps, rfl, hnodot, hsub, hne, hlast, hlen⟩
  · exact normalized_lower_fix d
  · apply map_fix_of_forall
    intro c hc
    rcases mem_joinDots ps c hc with rfl | ⟨p, hp, hcp⟩
    · exact pyToLower_dot
    · exact lower_fix_of_mem (normalized_lower_fix d) (hsub p hp c hcp)

theorem extract_no_dot_end {d r : List Char} (h : extract_apex_domain d = some r)
    (hd : endswith_dot (normalized_domain d) = false) : endswith_dot r = false := by
  rcases extract_form h with ⟨rfl, _, _⟩ | ⟨ps, rfl, hnodot, hsub, hne, hlast, hlen⟩
  · exact hd
  · obtain ⟨c0, hc0⟩ : ∃ c0, (normalized_domain d).getLast? = some c0 := by
      cases hg : (normalized_domain d).getLast? with
      | none => exact absurd (List.getLast?_eq_none_iff.mp hg) hne
      | some c0 => exact ⟨c0, rfl⟩
    have hc0ne : (c0 == '.') = false := by
      rw [endswith_dot_false_iff] at hd
      by_cases hcc : c0 = '.'
      · exact absurd (hcc ▸ hc0) hd
      · simp [hcc]
    have hplast : ((normalized_domain d).splitOn '.').getLast? ≠ some ([] : List Char) :=
      splitOnP_getLast_ne_nil (· == '.') (normalized_domain d) c0 hc0 hc0ne
    obtain ⟨q, hq⟩ : ∃ q, ((normalized_domain d).splitOn '.').getLast? = some q := by
      cases hg : ((normalized_domain d).splitOn '.').getLast? with
      | none => exact absurd (List.getLast?_eq_none_iff.mp hg) (splitOn_dot_ne_nil _)
      | some q => exact ⟨q, rfl⟩
    have hqne : q ≠ [] := fun hcon => hplast (hcon ▸ hq)
    have hpsq : ps.getLast? = some q := by rw [hlast, hq]
    have hjq := getLast?_joinDots ps q hpsq hqne
    rw [endswith_dot_false_iff, hjq]
    intro hcon
    exact hnodot q (mem_of_getLast?_eq_some hpsq) (mem_of_getLast?_eq_some hcon)

theorem extract_fix_single {r : List Char} (h1 : r ≠ []) (h2 : '.' ∉ r)
    (h3 : pyStrip r = r) (h4 : pyLower r = r) :
    extract_apex_domain r = some r := by
  have hnd : normalized_domain r = r := by
    rw [normalized_domain, h3, h4, pyDropDot, if_neg]
    intro hcon
    rw [endswith_dot_true_iff] at hcon
    exact h2 (mem_of_getLast?_eq_some hcon)
  have hsplit : r.splitOn '.' = [r] := by
    apply List.splitOnP_eq_single
    intro x hx hcon
    rw [beq_iff_eq] at hcon
    exact h2 (hcon ▸ hx)
  rw [extract_apex_domain_eq, hnd, hsplit, if_neg h1, if_pos]
  simp

theorem extract_fix_join (ps : List (List Char)) (hnodot : ∀ p ∈ ps, '.' ∉ p)
    (hlen : ps.length = 2 ∨ (ps.length = 3 ∧ joinDots (pyTakeLast 2 ps) ∈ two_level_tlds))
    (h3 : pyStrip (joinDots ps) = joinDots ps) (h4 : pyLower (joinDots ps) = joinDots ps)
    (h5 : endswith_dot (joinDots ps) = false) :
    extract_apex_domain (joinDots ps) = some (joinDots ps) := by
  have h2le : 2 ≤ ps.length := by
    rcases hlen with h | ⟨h, _⟩ <;> omega
  have hps_ne : ps ≠ [] := by
    intro hcon
    rw [hcon] at h2le
    simp at h2le
  have hjoin_ne : joinDots ps ≠ [] := by
    cases ps with
    | nil => simp at h2le
    | cons a q =>
      cases q with
      | nil => simp at h2le
      | cons b t => exact joinDots_ne_nil a b t
  have hnd : normalized_domain (joinDots ps) = joinDots ps := by
    rw [normalized_domain, h3, h4, pyDropDot, h5]
    simp
  have hsplit : (joinDots ps).splitOn '.' = ps := by
    rw [joinDots]
    exact List.splitOn_intercalate ps '.' hnodot hps_ne
  rcases hlen with h2 | ⟨hl3, hmem⟩
  · rw [extract_apex_domain_eq, hnd, hsplit, if_neg hjoin_ne,
      if_neg (by omega : ¬ ps.length ≤ 1), if_neg, pyTakeLast_all 2 ps (by omega)]
    intro hcon
    rcases hcon with ⟨hc, _⟩
    omega
  · rw [extract_apex_domain_eq, hnd, hsplit, if_neg hjoin_ne,
      if_neg (by omega : ¬ ps.length ≤ 1), if_pos ⟨by omega, hmem⟩,
      pyTakeLast_all 3 ps (by omega)]

theorem endswith_dot_pyLower (s : List Char) :
    endswith_dot (pyLower s) = endswith_dot s := by
  rw [endswith_dot, endswith_dot, pyLower, List.getLast?_map]
  cases hg : s.getLast? with
  | none => simp
  | some c =>
    by_cases hc : c = '.'
    · simp [hc, pyToLower_dot]
    · have : pyToLower c ≠ '.' := fun hcon => hc ((pyToLower_eq_dot_iff c).mp hcon)
      simp [hc, this]

theorem pyDropDot_pyLower (s : List Char) :
    pyDropDot (pyLower s) = pyLower (pyDropDot s) := by
  rw [pyDropDot, pyDropDot, endswith_dot_pyLower]
  by_cases h : endswith_dot s
  · rw [if_pos h, if_pos h, pyLower, pyLower]
    exact ((List.map_dropLast pyToLower s).symm)
  · rw [if_neg h, if_neg h]

theorem normalized_domain_eq_nil_iff (d : List Char) :
    normalized_domain d = [] ↔ pyDropDot (pyStrip d) = [] := by
  rw [normalized_domain, pyDropDot_pyLower, pyLower, List.map_eq_nil_iff]

/-! ### Deduplication and sorting lemmas for the batch processor -/

theorem add_apex_nodup {acc : List (List Char)} (h : acc.Nodup) (a : List Char) :
    (add_apex acc a).Nodup := by
  rw [add_apex]
  by_cases hmem : a ∈ acc
  · rw [if_pos hmem]
    exact h
  · rw [if_neg hmem]
    simp [List.nodup_append, h, hmem]

theorem process_line_nodup {acc : List (List Char)} (h : acc.Nodup) (raw : List Char) :
    (process_line acc raw).Nodup := by
  rw [process_line]
  by_cases hskip : pyStrip raw = [] ∨ (pyStrip raw).head? = some '#'
  · rw [if_pos hskip]
    exact h
  · rw [if_neg hskip]
    cases extract_apex_domain (first_token (pyStrip raw)) with
    | none => exact h
    | some apex => exact add_apex_nodup h apex

theorem foldl_process_line_nodup :
    ∀ (lines : List (List Char)) (acc : List (List Char)), acc.Nodup →
      (lines.foldl process_line acc).Nodup
  | [], _, h => h
  | raw :: rest, acc, h =>
    foldl_process_line_nodup rest (process_line acc raw) (process_line_nodup h raw)

theorem apex_set_nodup (lines : List (List Char)) : (apex_set lines).Nodup :=
  foldl_process_line_nodup lines [] List.nodup_nil

theorem main_batch_total :
    ∀ (specs : List FileSpec) (n : Nat) (acc : List Nat),
      (specs.foldl
        (fun acc spec => (acc.1 + 1, acc.2 ++ [(process_file_eff spec none).1]))
        (n, acc)).1 = n + specs.length
  | [], n, acc => by simp
  | spec :: rest, n, acc => by
    rw [List.foldl_cons, main_batch_total rest (n + 1) _]
    simp
    omega

theorem splitOnP_mem_piece {α : Type} (p : α → Bool) :
    ∀ (s : List α) (c : α), c ∈ s → p c = false →
      ∃ piece, piece ∈ s.splitOnP p ∧ c ∈ piece := by
  intro s
  induction s with
  | nil =>
    intro c hc
    simp at hc
  | cons x xs ih =>
    intro c hc hpc
    rw [List.splitOnP_cons]
    by_cases hx : p x
    · rw [if_pos hx]
      have hcx : c ∈ xs := by
        rcases List.mem_cons.mp hc with h1 | h2
        · subst h1
          rw [hx] at hpc
          cases hpc
        · exact h2
      obtain ⟨piece, hp, hcp⟩ := ih c hcx hpc
      exact ⟨piece, List.mem_cons_of_mem _ hp, hcp⟩
    · rw [if_neg hx]
      obtain ⟨r, rs, hrr⟩ : ∃ r rs, xs.splitOnP p = r :: rs := by
        cases hsp : xs.splitOnP p with
        | nil => exact absurd hsp (List.splitOnP_ne_nil p xs)
        | cons r rs => exact ⟨r, rs, rfl⟩
      rw [hrr, List.modifyHead_cons]
      rcases List.mem_cons.mp hc with h1 | h2
      · subst h1
        exact ⟨c :: r, List.mem_cons_self _ _, List.mem_cons_self c r⟩
      · obtain ⟨piece, hp, hcp⟩ := ih c h2 hpc
        rw [hrr] at hp
        rcases List.mem_cons.mp hp with h3 | h4
        · subst h3
          exact ⟨x :: piece, List.mem_cons_self _ _, List.mem_cons_of_mem x hcp⟩
        · exact ⟨piece, List.mem_cons_of_mem _ h4, hcp⟩

theorem pySplitWs_ne_nil_of_nonspace {s : List Char} {c : Char} (hc : c ∈ s)
    (hns : pyIsSpace c = false) : pySplitWs s ≠ [] := by
  obtain ⟨piece, hp, hcp⟩ := splitOnP_mem_piece pyIsSpace s c hc hns
  intro hcon
  have hmem : piece ∈ (s.splitOnP pyIsSpace).filter (fun t => !t.isEmpty) := by
    apply List.mem_filter.mpr
    refine ⟨hp, ?_⟩
    have hne : piece ≠ [] := List.ne_nil_of_mem hcp
    simp [hne]
  rw [pySplitWs] at hcon
  rw [hcon] at hmem
  simp at hmem

theorem first_token_of_split {line t : List Char} {ts : List (List Char)}
    (h : pySplitWs line = t :: ts) : first_token line = t := by
  unfold first_token
  rw [h]

/-! ### Claim theorems -/

/-- C1: for the six-line example file (`sub.example.com`,
`www.example.co.uk`, `example.com`, a `#` comment, a blank line,
`onelabel`) the processor writes exactly the three sorted lines
`example.co.uk`, `example.com`, `onelabel` and returns the unique
count 3. -/
theorem claim_c1_end_to_end :
    process_file_eff
        ⟨Except.ok ["sub.example.com".toList, "www.example.co.uk".toList,
          "example.com".toList, "# ignore this".toList, "".toList,
          "onelabel".toList], true⟩ none =
      (3, some ["example.co.uk".toList, "example.com".toList, "onelabel".toList]) := by
  decide

/-- C2: whenever the normalised input has three or more labels and the
last two labels joined by a dot lie in the two-part suffix set, the
resolver returns the last three labels joined by dots. -/
theorem claim_c2_two_part_suffix (d : List Char)
    (h3 : 3 ≤ ((normalized_domain d).splitOn '.').length)
    (hmem : joinDots (pyTakeLast 2 ((normalized_domain d).splitOn '.')) ∈ two_level_tlds) :
    extract_apex_domain d =
      some (joinDots (pyTakeLast 3 ((normalized_domain d).splitOn '.'))) := by
  have h0 : normalized_domain d ≠ [] := by
    intro hcon
    rw [hcon, List.splitOn_nil] at h3
    simp at h3
  exact extract_of_tld d h0 (by omega) ⟨h3, hmem⟩

/-- Witness for C2 at the concrete input `x.co.uk`. -/
theorem claim_c2_witness :
    extract_apex_domain ("x.co.uk".toList) =
      some (joinDots (pyTakeLast 3 ((normalized_domain ("x.co.uk".toList)).splitOn '.'))) :=
  claim_c2_two_part_suffix ("x.co.uk".toList) (by decide) (by decide)

/-- C3 counterexample: `A` is a single label (contains no dot), yet the
resolver lowercases it, so it is not returned unchanged. -/
theorem claim_c3_counterexample :
    ('.' ∉ "A".toList) ∧ extract_apex_domain ("A".toList) ≠ some ("A".toList) := by
  decide

/-- C3 amended: a single-label input that is already normalised
(nonempty, trim-invariant and lowercase-invariant) is returned
unchanged. -/
theorem claim_c3_single_label (d : List Char) (hdot : '.' ∉ d) (hne : d ≠ [])
    (hstrip : pyStrip d = d) (hlower : pyLower d = d) :
    extract_apex_domain d = some d :=
  extract_fix_single hne hdot hstrip hlower

/-- Witness for the amended C3 at the concrete input `onelabel`. -/
theorem claim_c3_witness :
    extract_apex_domain ("onelabel".toList) = some ("onelabel".toList) :=
  claim_c3_single_label ("onelabel".toList) (by decide) (by decide) (by decide) (by decide)

/-- C4 counterexample: on `a.b..` only one trailing dot is stripped, the
last label splits off empty, and the returned apex `b.` ends with the
separator. -/
theorem claim_c4_counterexample :
    extract_apex_domain ("a.b..".toList) = some ("b.".toList) ∧
      endswith_dot ("b.".toList) = true := by
  decide

/-- C4 amended: every non-absent result is entirely lowercase; it is
also free of a trailing separator provided the normalised input (after
the single trailing-dot strip) does not itself still end with the
separator. -/
theorem claim_c4_lower_and_sep (d r : List Char) (h : extract_apex_domain d = some r) :
    pyLower r = r ∧
      (endswith_dot (normalized_domain d) = false → endswith_dot r = false) :=
  ⟨extract_lower h, fun hd => extract_no_dot_end h hd⟩

/-- Witness for the amended C4 at the concrete input `Sub.Example.COM`. -/
theorem claim_c4_witness :
    pyLower ("example.com".toList) = "example.com".toList ∧
      (endswith_dot (normalized_domain ("Sub.Example.COM".toList)) = false →
        endswith_dot ("example.com".toList) = false) :=
  claim_c4_lower_and_sep ("Sub.Example.COM".toList) ("example.com".toList) (by decide)

/-- C5 counterexample: `a .` resolves to `a ` (the trailing-dot strip
exposes a space), and resolving `a ` again trims it to `a`, so the
resolver is not idempotent on its own output. -/
theorem claim_c5_counterexample :
    extract_apex_domain ("a .".toList) = some ("a ".toList) ∧
      extract_apex_domain ("a ".toList) ≠ some ("a ".toList) := by
  decide

/-- C5 amended: the resolver fixes any of its own outputs that is
trim-invariant and does not end with the separator:
`resolve r = some r` for such a non-absent result `r`. -/
theorem claim_c5_idempotent (d r : List Char) (h : extract_apex_domain d = some r)
    (hstrip : pyStrip r = r) (hdot : endswith_dot r = false) :
    extract_apex_domain r = some r := by
  have hlow := extract_lower h
  rcases extract_form h with ⟨rfl, hne, hnodot⟩ | ⟨ps, rfl, hnodot, hsub, hne, hlast, hlen⟩
  · exact extract_fix_single hne hnodot hstrip hlow
  · exact extract_fix_join ps hnodot hlen hstrip hlow hdot

/-- Witness for the amended C5: `sub.example.com` resolves to
`example.com`, which resolves to itself. -/
theorem claim_c5_witness :
    extract_apex_domain ("example.com".toList) = some ("example.com".toList) :=
  claim_c5_idempotent ("sub.example.com".toList) ("example.com".toList)
    (by decide) (by decide) (by decide)

/-- C6: the resolver is total (it is a function into `Option`), and it
returns absence exactly when the input is empty after trimming
whitespace and stripping one trailing dot. -/
theorem claim_c6_none_iff_empty (d : List Char) :
    extract_apex_domain d = none ↔ pyDropDot (pyStrip d) = [] := by
  rw [extract_eq_none_iff, normalized_domain_eq_nil_iff]

/-- C7: for every input, the output lines are strictly ascending in
lexicographic order (hence duplicate-free) and their number equals the
returned unique count. -/
theorem claim_c7_sorted_output (lines : List (List Char)) :
    List.Pairwise (· < ·) (process_file lines).1 ∧
      (process_file lines).1.length = (process_file lines).2 := by
  have hnodup : (apex_set lines).Nodup := apex_set_nodup lines
  constructor
  · have hsorted : List.Sorted (· ≤ ·) ((apex_set lines).insertionSort (· ≤ ·)) :=
      List.sorted_insertionSort (· ≤ ·) (apex_set lines)
    have hnd2 : ((apex_set lines).insertionSort (· ≤ ·)).Nodup :=
      (List.perm_insertionSort (· ≤ ·) (apex_set lines)).nodup_iff.mpr hnodup
    show List.Pairwise (· < ·) ((apex_set lines).insertionSort (· ≤ ·))
    exact (hsorted.and hnd2).imp (fun hab => lt_of_le_of_ne hab.1 hab.2)
  · show ((apex_set lines).insertionSort (· ≤ ·)).length = (apex_set lines).length
    exact List.length_insertionSort (· ≤ ·) (apex_set lines)

/-- C8: a file whose read or write raises contributes a count of 0, and
the files-processed counter still counts every discovered file. -/
theorem claim_c8_error_isolation (specs : List FileSpec) (spec : FileSpec)
    (prev : Option (List (List Char)))
    (h : spec.readRes.isOk = false ∨ spec.writeOk = false) :
    (main_batch specs).1 = specs.length ∧ (process_file_eff spec prev).1 = 0 := by
  constructor
  · have htot := main_batch_total specs 0 []
    simpa [main_batch] using htot
  · rcases spec with ⟨readRes, writeOk⟩
    cases readRes with
    | error e => rfl
    | ok lines =>
      rcases h with h | h
      · simp [Except.isOk, Except.toBool] at h
      · subst h
        rfl

/-- Witness for C8: an empty batch and a file whose read raises. -/
theorem claim_c8_witness :
    (main_batch []).1 = ([] : List FileSpec).length ∧
      (process_file_eff ⟨Except.error "read failure", true⟩ none).1 = 0 :=
  claim_c8_error_isolation [] ⟨Except.error "read failure", true⟩ none (Or.inl rfl)

/-- C9: a line that is nonempty after stripping (whether or not it is a
`#` comment) has at least one whitespace-separated token, so the
fallback to the full stripped line is unreachable and the first token
is just the head of the split. -/
theorem claim_c9_first_token (raw : List Char) (h1 : pyStrip raw ≠ [])
    (_h2 : (pyStrip raw).head? ≠ some '#') :
    pySplitWs (pyStrip raw) ≠ [] ∧
      first_token (pyStrip raw) = (pySplitWs (pyStrip raw)).headI := by
  obtain ⟨c, hc, hns⟩ := pyStrip_has_nonspace h1
  have hne := pySplitWs_ne_nil_of_nonspace hc hns
  refine ⟨hne, ?_⟩
  cases hsp : pySplitWs (pyStrip raw) with
  | nil => exact absurd hsp hne
  | cons t ts =>
    rw [first_token_of_split hsp]
    rfl

/-- Witness for C9 at the concrete line `abc def`. -/
theorem claim_c9_witness :
    pySplitWs (pyStrip ("abc def".toList)) ≠ [] ∧
      first_token (pyStrip ("abc def".toList)) =
        (pySplitWs (pyStrip ("abc def".toList))).headI :=
  claim_c9_first_token ("abc def".toList) (by decide) (by decide)

/-- C10: when the read phase raises, the output file is never opened:
its state (missing or with its previous content) is unchanged and the
count is 0. -/
theorem claim_c10_read_error_keeps_output (e : String) (w : Bool)
    (prev : Option (List (List Char))) :
    process_file_eff ⟨Except.error e, w⟩ prev = (0, prev) := rfl
